import Mathlib

/-!
Verification of the chart-recipe-to-visualization pipeline of the
AgenticVisualization repository (dashboard variant, the file holding
`computeChartData`, `getFilteredRows`, `getAllCategories` and
`buildCategorySelector` with category limiting).

Rows are CSV records: every stored value is a string (Papa.parse with
`header: true` and no dynamic typing), and a column may be absent from a
record.  JavaScript numbers are modelled by exact rationals: `Option ℚ`
with `none` standing for `NaN`.  The model of `Number(...)` covers the
decimal, hex, octal and binary string grammars and the
empty/whitespace-to-zero rule; non-finite results (`"Infinity"`) are
outside the rational model and are mapped to `none`.
-/

/-- A CSV row: association list from column name to raw string value.
Column names are unique (CSV header). -/
abbrev Row : Type := List (String × String)

/-- `row[col]` on a row object: the stored string, or `none` when the
column is absent (JavaScript `undefined`). -/
def rowValue (r : Row) (c : String) : Option String :=
  (List.find? (fun p => p.1 == c) r).map (fun p => p.2)

-- ## The JavaScript `Number(string)` coercion, on exact rationals

/-- JavaScript string whitespace accepted around a numeric literal. -/
def isJsWhitespace (c : Char) : Bool :=
  c = ' ' || c = '\t' || c = '\n' || c = '\r'

/-- Strip leading and trailing whitespace. -/
def trimWs (cs : List Char) : List Char :=
  ((cs.dropWhile isJsWhitespace).reverse.dropWhile isJsWhitespace).reverse

def allDigits (cs : List Char) : Bool := cs.all (fun c => c.isDigit)

def digitsToNat (cs : List Char) : Nat :=
  cs.foldl (fun n c => 10 * n + (c.toNat - 48)) 0

/-- Unsigned decimal mantissa: `digits`, `digits.digits?`, or `.digits`. -/
def parseMantissa (cs : List Char) : Option ℚ :=
  match cs.span (fun c => c != '.') with
  | (ip, []) =>
      if !ip.isEmpty && allDigits ip then some ((digitsToNat ip : ℚ)) else none
  | (ip, _ :: fp) =>
      if (!ip.isEmpty || !fp.isEmpty) && allDigits ip && allDigits fp then
        some ((digitsToNat ip : ℚ) + (digitsToNat fp : ℚ) / ((10 : ℚ) ^ fp.length))
      else none

/-- Optionally signed digit string (the exponent of a decimal literal). -/
def parseSignedDigits (cs : List Char) : Option ℤ :=
  match cs with
  | '+' :: ds => if !ds.isEmpty && allDigits ds then some ((digitsToNat ds : ℤ)) else none
  | '-' :: ds => if !ds.isEmpty && allDigits ds then some (-(digitsToNat ds : ℤ)) else none
  | ds => if !ds.isEmpty && allDigits ds then some ((digitsToNat ds : ℤ)) else none

/-- Unsigned decimal literal with optional exponent part. -/
def parseDecimal (cs : List Char) : Option ℚ :=
  match cs.span (fun c => c != 'e' && c != 'E') with
  | (m, []) => parseMantissa m
  | (m, _ :: ex) =>
      match parseMantissa m, parseSignedDigits ex with
      | some q, some k => some (q * (10 : ℚ) ^ k)
      | _, _ => none

def radixDigitVal (c : Char) : Option Nat :=
  if c.isDigit then some (c.toNat - 48)
  else if 'a' ≤ c && c ≤ 'f' then some (c.toNat - 87)
  else if 'A' ≤ c && c ≤ 'F' then some (c.toNat - 55)
  else none

/-- Digit string in radix `b` (hex/octal/binary integer literals). -/
def parseRadix (b : Nat) (cs : List Char) : Option ℚ :=
  if cs.isEmpty then none
  else
    (cs.foldl
      (fun acc c =>
        match acc, radixDigitVal c with
        | some n, some d => if d < b then some (b * n + d) else none
        | _, _ => none)
      (some 0)).map (fun n => ((n : ℚ)))

/-- JavaScript `Number(s)` for a string `s`: `none` models `NaN`. -/
def jsStrToNum (s : String) : Option ℚ :=
  match trimWs s.toList with
  | [] => some 0
  | '0' :: 'x' :: rest => parseRadix 16 rest
  | '0' :: 'X' :: rest => parseRadix 16 rest
  | '0' :: 'o' :: rest => parseRadix 8 rest
  | '0' :: 'O' :: rest => parseRadix 8 rest
  | '0' :: 'b' :: rest => parseRadix 2 rest
  | '0' :: 'B' :: rest => parseRadix 2 rest
  | '+' :: rest => parseDecimal rest
  | '-' :: rest => (parseDecimal rest).map (fun q => -q)
  | cs => parseDecimal cs

/-- `Number(row[col])`: `Number(undefined)` is `NaN`. -/
def jsToNum (v : Option String) : Option ℚ :=
  match v with
  | none => none
  | some s => jsStrToNum s

/-- JavaScript `Math.round`: half-integers round toward positive infinity. -/
def jsRound (q : ℚ) : ℤ := Int.floor (q + 1 / 2)

/-- `Math.round(q * 100) / 100`: rounding to two decimal places. -/
def round2 (q : ℚ) : ℚ := ((jsRound (q * 100) : ℚ)) / 100

-- ## Filter State and `getFilteredRows`

/-- The `activeFilters` object: column name to the single active value.
Keys are unique, mirroring a JavaScript object. -/
abbrev FilterState : Type := List (String × String)

/-- `activeFilters[col]` lookup. -/
def fsGet (fs : FilterState) (col : String) : Option String :=
  (List.find? (fun p => p.1 == col) fs).map (fun p => p.2)

/-- `delete activeFilters[col]`. -/
def fsDelete (fs : FilterState) (col : String) : FilterState :=
  fs.filter (fun p => p.1 != col)

/-- `activeFilters[col] = val`.  A JavaScript object keeps the original
slot position on overwrite; this model moves the pair to the end, which
agrees with the object on every lookup and on the set of entries. -/
def fsSet (fs : FilterState) (col val : String) : FilterState :=
  fsDelete fs col ++ [(col, val)]

/-- Keys of the filter state are pairwise distinct (true of any
JavaScript object; preserved by `fsSet` and `fsDelete`). -/
def fsKeysNodup (fs : FilterState) : Prop := (fs.map Prod.fst).Nodup

/-- One row passes every active filter (the loop body of
`getFilteredRows`, source lines 49-54). -/
def rowPasses (fs : FilterState) (r : Row) : Bool :=
  fs.all (fun p => rowValue r p.1 == some p.2)

/-- `getFilteredRows` (source lines 48-55): conjunction of all active
column filters over `allRows`. -/
def getFilteredRows (fs : FilterState) (rows : List Row) : List Row :=
  rows.filter (rowPasses fs)

/-- The body of the `plotly_click` handler (source lines 230-234):
toggle the filter for `col` on the clicked value. -/
def toggleFilter (fs : FilterState) (col val : String) : FilterState :=
  if fsGet fs col = some val then fsDelete fs col else fsSet fs col val

/-- The `plotly_click` handler for bar/pie charts (source lines
226-238): a click on the synthetic "Other" label is ignored, any other
label toggles the filter for the chart's x column. -/
def chartClick (fs : FilterState) (col label : String) : FilterState :=
  if label = "Other" then fs else toggleFilter fs col label

-- ## Grouping and the Aggregation Engine

/-- `row[xColumn] || "Unknown"` (source line 84): missing and empty
values fall back to the literal key "Unknown". -/
def keyOf (xCol : String) (r : Row) : String :=
  match rowValue r xCol with
  | none => "Unknown"
  | some s => if s = "" then "Unknown" else s

/-- Append a key if it is new: builds JavaScript object-key insertion
order (first occurrence first). -/
def addKey (ks : List String) (k : String) : List String :=
  if k ∈ ks then ks else ks ++ [k]

/-- `Object.keys(groups)` for the `groups` object of source lines 82-87:
the distinct group keys in first-occurrence order. -/
def jsKeys (xCol : String) (rows : List Row) : List String :=
  rows.foldl (fun ks r => addKey ks (keyOf xCol r)) []

/-- `groups[k]`: the rows of group `k`, in row order. -/
def groupOf (xCol : String) (rows : List Row) (k : String) : List Row :=
  rows.filter (fun r => keyOf xCol r == k)

/-- `groups[k].length`: the size of group `k`. -/
def countOf (xCol : String) (rows : List Row) (k : String) : Nat :=
  (groupOf xCol rows k).length

/-- The comparator `(a, b) => groups[b].length - groups[a].length`
(source line 97) as an ordering relation: descending group size. -/
def byCountDesc (xCol : String) (rows : List Row) (a b : String) : Prop :=
  countOf xCol rows b ≤ countOf xCol rows a

instance (xCol : String) (rows : List Row) : DecidableRel (byCountDesc xCol rows) :=
  fun _ _ => Nat.decLe _ _

instance (xCol : String) (rows : List Row) : IsTotal String (byCountDesc xCol rows) :=
  ⟨fun a b => le_total (countOf xCol rows b) (countOf xCol rows a)⟩

instance (xCol : String) (rows : List Row) : IsTrans String (byCountDesc xCol rows) :=
  ⟨fun _ _ _ hab hbc => le_trans hbc hab⟩

/-- `getAllCategories` (source lines 58-67): all distinct values of a
column (with the "Unknown" fallback), sorted by count descending.  The
sort is modelled by a stable insertion sort; the tie order among equal
counts is implementation-defined in the source. -/
def getAllCategories (column : String) (rows : List Row) : List String :=
  List.insertionSort (byCountDesc column rows) (jsKeys column rows)

/-- `Object.keys(groups).sort((a, b) => groups[b].length - groups[a].length)`
(source line 97): same ordering as `getAllCategories`. -/
def sortedKeys (xCol : String) (rows : List Row) : List String :=
  List.insertionSort (byCountDesc xCol rows) (jsKeys xCol rows)

inductive ChartType : Type
  | bar
  | pie
  | scatter
  | histogram
deriving DecidableEq

inductive Agg : Type
  | count
  | average
  | sum
deriving DecidableEq

/-- A chart recipe: `type`, `xColumn`, `yColumn`, `aggregation`
(title/description are display-only and omitted). -/
structure Recipe : Type where
  type : ChartType
  xColumn : String
  yColumn : String
  aggregation : Agg

/-- The plot-ready series returned by the Aggregation Engine. -/
inductive ChartData : Type
  | xy (x : List (Option ℚ)) (y : List (Option ℚ))
  | hist (values : List (Option ℚ))
  | cat (labels : List String) (values : List ℚ)

def catLabels : ChartData → List String
  | .cat ls _ => ls
  | _ => []

def catValues : ChartData → List ℚ
  | .cat _ vs => vs
  | _ => []

/-- The per-group scalar of source lines 101-109: count is the group
size; average maps the group through `Number`, keeps the non-`NaN`
results and takes the mean rounded to two decimals (0 when no number
survives); sum adds the surviving numbers. -/
def aggValue (agg : Agg) (yCol : String) (g : List Row) : ℚ :=
  match agg with
  | .count => ((g.length : ℚ))
  | .average =>
      let nums := (g.map (fun r => jsToNum (rowValue r yCol))).filterMap id
      if nums.length = 0 then 0 else round2 (nums.sum / ((nums.length : ℚ)))
  | .sum => ((g.map (fun r => jsToNum (rowValue r yCol))).filterMap id).sum

/-- The loop of source lines 99-120 over the sorted keys, producing the
shown (label, value) pairs, the accumulated "Other" value, and the
`hasOther` flag.  Collapsed keys are skipped entirely for average. -/
def shownLoop (agg : Agg) (val : String → ℚ) (selected : List String) :
    List String → List (String × ℚ) × ℚ × Bool
  | [] => ([], 0, false)
  | k :: ks =>
      let rest := shownLoop agg val selected ks
      if k ∈ selected then ((k, val k) :: rest.1, rest.2.1, rest.2.2)
      else if agg = Agg.average then rest
      else (rest.1, val k + rest.2.1, true)

/-- `selectedCategories || Object.keys(groups)` (source line 90). -/
def selectedOf (xCol : String) (rows : List Row) (sel : Option (List String)) :
    List String :=
  sel.getD (jsKeys xCol rows)

/-- The bar/pie branch of `computeChartData` (source lines 81-127). -/
def computeCatData (xCol yCol : String) (agg : Agg) (rows : List Row)
    (sel : Option (List String)) : ChartData :=
  let selected := selectedOf xCol rows sel
  let res := shownLoop agg (fun k => aggValue agg yCol (groupOf xCol rows k))
    selected (sortedKeys xCol rows)
  if res.2.2 = true ∧ 0 < res.2.1 then
    ChartData.cat (res.1.map Prod.fst ++ ["Other"]) (res.1.map Prod.snd ++ [res.2.1])
  else
    ChartData.cat (res.1.map Prod.fst) (res.1.map Prod.snd)

/-- `computeChartData` (source lines 70-128). -/
def computeChartData (recipe : Recipe) (rows : List Row)
    (sel : Option (List String)) : ChartData :=
  match recipe.type with
  | .scatter =>
      ChartData.xy (rows.map (fun r => jsToNum (rowValue r recipe.xColumn)))
        (rows.map (fun r => jsToNum (rowValue r recipe.yColumn)))
  | .histogram =>
      ChartData.hist (rows.map (fun r => jsToNum (rowValue r recipe.xColumn)))
  | .bar => computeCatData recipe.xColumn recipe.yColumn recipe.aggregation rows sel
  | .pie => computeCatData recipe.xColumn recipe.yColumn recipe.aggregation rows sel

-- ## Category Bucketing (selection state of `buildCategorySelector`)

def DEFAULT_MAX_CATEGORIES : Nat := 4

/-- The selection-state effect of `buildCategorySelector` (source lines
319-331): with at most `DEFAULT_MAX_CATEGORIES` distinct categories no
selection is created (the existing state is untouched and the card shows
all categories); otherwise a missing selection is initialized to the
first four categories of the descending-count ordering. -/
def ensureSelection (existing : Option (List String)) (allCats : List String) :
    Option (List String) :=
  if allCats.length ≤ DEFAULT_MAX_CATEGORIES then existing
  else some (existing.getD (allCats.take DEFAULT_MAX_CATEGORIES))

/-- The category-pill click handler (source lines 343-355): deselecting
is rejected when it would empty the selection; otherwise a selected
label is removed, an unselected one is appended. -/
def pillClick (sel : List String) (cat : String) : List String :=
  if cat ∈ sel then
    if sel.length ≤ 1 then sel else sel.filter (fun c => c ≠ cat)
  else sel ++ [cat]

-- ## Spec-side definitions (for refinement statements)

/-- Modelled from the spec: the rows of a group whose `yColumn` value
coerces to a valid number — the rows the spec says the aggregate is
computed over. -/
def validRows (yCol : String) (g : List Row) : List Row :=
  g.filter (fun r => (jsToNum (rowValue r yCol)).isSome)

/-- Modelled from the spec: the numeric coercions of the valid rows. -/
def validNums (yCol : String) (g : List Row) : List ℚ :=
  (validRows yCol g).filterMap (fun r => jsToNum (rowValue r yCol))

/-- Modelled from the spec: per-group sum over the valid rows only. -/
def specSum (yCol : String) (g : List Row) : ℚ := (validNums yCol g).sum

/-- Modelled from the spec: per-group mean over the valid rows only,
rounded to two decimals, `0` when the group has no valid numeric entry. -/
def specAverage (yCol : String) (g : List Row) : ℚ :=
  if validNums yCol g = [] then 0
  else round2 ((validNums yCol g).sum / (((validNums yCol g).length : ℚ)))

/-- The keys that stay individually shown: sorted keys inside the
selection. -/
def shownKeys (xCol : String) (rows : List Row) (sel : Option (List String)) :
    List String :=
  (sortedKeys xCol rows).filter (fun k => decide (k ∈ selectedOf xCol rows sel))

/-- The keys collapsed toward the "Other" bucket. -/
def collapsedKeys (xCol : String) (rows : List Row) (sel : Option (List String)) :
    List String :=
  (sortedKeys xCol rows).filter (fun k => !decide (k ∈ selectedOf xCol rows sel))

-- ## Concrete fixtures for witnesses and counterexamples

/-- The survey rows of the spec's test scenario (section 8). -/
def wRows : List Row :=
  [[("industry", "Tech")], [("industry", "Tech")], [("industry", "Finance")], [("industry", "")]]

def wRecipeCount : Recipe := ⟨ChartType.bar, "industry", "", Agg.count⟩

def wRecipeSum : Recipe := ⟨ChartType.bar, "c", "v", Agg.sum⟩

def wRecipeAvg : Recipe := ⟨ChartType.bar, "c", "v", Agg.average⟩

/-- A one-row group whose y value does not coerce to a number. -/
def wBadGroup : List Row := [[("v", "abc")]]

/-- Rows in which the literal string "Other" occurs as a data value of
the grouping column. -/
def wRowsOther : List Row := [[("c", "Other"), ("v", "1")], [("c", "B"), ("v", "2")]]

/-- A filter state with the industry column filtered to Finance. -/
def wFsFinance : FilterState := [("industry", "Finance")]

/-- Rows with an empty value for a column, for the "Unknown" click. -/
def wRowsUnknown : List Row :=
  [[("c", ""), ("v", "1")], [("c", "B"), ("v", "2")], [("c", "Unknown"), ("v", "3")]]

-- ## General list lemmas

theorem length_filter_add_length_filter_neg {α : Type} (p : α → Bool) (l : List α) :
    (l.filter p).length + (l.filter (fun a => !p a)).length = l.length := by
  have h := (List.filter_append_perm p l).length_eq
  simpa [List.length_append] using h

theorem sum_map_filter_partition {α : Type} (p : α → Bool) (f : α → ℚ) (l : List α) :
    ((l.filter p).map f).sum + ((l.filter (fun a => !p a)).map f).sum = (l.map f).sum := by
  have h := ((List.filter_append_perm p l).map f).sum_eq
  simpa [List.map_append, List.sum_append] using h

theorem mem_zip_map_of_mem {α β : Type} (f : α → β) (l : List α) (a : α)
    (h : a ∈ l) : (a, f a) ∈ l.zip (l.map f) := by
  induction l with
  | nil => cases h
  | cons x xs ih =>
      rcases List.mem_cons.mp h with h | h
      · subst h; simp [List.zip_cons_cons]
      · simp [List.zip_cons_cons, ih h]

-- ## Key-collection lemmas

theorem mem_foldl_addKey (xCol : String) (rows : List Row) :
    ∀ (init : List String) (k : String),
      (k ∈ rows.foldl (fun ks r => addKey ks (keyOf xCol r)) init ↔
        k ∈ init ∨ ∃ r ∈ rows, keyOf xCol r = k) := by
  induction rows with
  | nil => simp
  | cons r rs ih =>
      intro init k
      rw [List.foldl_cons, ih]
      unfold addKey
      by_cases h : keyOf xCol r ∈ init
      · rw [if_pos h]
        constructor
        · rintro (hk | hk)
          · exact Or.inl hk
          · exact Or.inr (by rcases hk with ⟨r', hr', hk⟩; exact ⟨r', List.mem_cons_of_mem _ hr', hk⟩)
        · rintro (hk | hk)
          · exact Or.inl hk
          · rcases hk with ⟨r', hr', hk⟩
            rcases List.mem_cons.mp hr' with h' | h'
            · subst h'; exact Or.inl (hk ▸ h)
            · exact Or.inr ⟨r', h', hk⟩
      · rw [if_neg h]
        simp only [List.mem_append, List.mem_singleton]
        constructor
        · rintro ((hk | hk) | hk)
          · exact Or.inl hk
          · exact Or.inr ⟨r, List.mem_cons_self _ _, hk.symm⟩
          · exact Or.inr (by rcases hk with ⟨r', hr', hk⟩; exact ⟨r', List.mem_cons_of_mem _ hr', hk⟩)
        · rintro (hk | hk)
          · exact Or.inl (Or.inl hk)
          · rcases hk with ⟨r', hr', hk⟩
            rcases List.mem_cons.mp hr' with h' | h'
            · subst h'; exact Or.inl (Or.inr hk.symm)
            · exact Or.inr ⟨r', h', hk⟩

theorem mem_jsKeys (xCol : String) (rows : List Row) (k : String) :
    k ∈ jsKeys xCol rows ↔ ∃ r ∈ rows, keyOf xCol r = k := by
  unfold jsKeys
  rw [mem_foldl_addKey]
  simp

theorem keyOf_mem_jsKeys (xCol : String) (rows : List Row) (r : Row) (h : r ∈ rows) :
    keyOf xCol r ∈ jsKeys xCol rows :=
  (mem_jsKeys xCol rows _).mpr ⟨r, h, rfl⟩

theorem nodup_addKey (ks : List String) (k : String) (h : ks.Nodup) :
    (addKey ks k).Nodup := by
  unfold addKey
  by_cases hk : k ∈ ks
  · rwa [if_pos hk]
  · rw [if_neg hk]
    simp [List.nodup_append, h, hk]

theorem nodup_foldl_addKey (xCol : String) (rows : List Row) :
    ∀ (init : List String), init.Nodup →
      (rows.foldl (fun ks r => addKey ks (keyOf xCol r)) init).Nodup := by
  induction rows with
  | nil => intro init h; simpa using h
  | cons r rs ih =>
      intro init h
      rw [List.foldl_cons]
      exact ih _ (nodup_addKey _ _ h)

theorem jsKeys_nodup (xCol : String) (rows : List Row) : (jsKeys xCol rows).Nodup :=
  nodup_foldl_addKey xCol rows [] List.nodup_nil

theorem sortedKeys_perm (xCol : String) (rows : List Row) :
    (sortedKeys xCol rows).Perm (jsKeys xCol rows) :=
  List.perm_insertionSort _ _

theorem mem_sortedKeys (xCol : String) (rows : List Row) (k : String) :
    k ∈ sortedKeys xCol rows ↔ k ∈ jsKeys xCol rows :=
  (sortedKeys_perm xCol rows).mem_iff

theorem sortedKeys_sorted (xCol : String) (rows : List Row) :
    List.Pairwise (fun a b => countOf xCol rows b ≤ countOf xCol rows a)
      (sortedKeys xCol rows) :=
  List.sorted_insertionSort (byCountDesc xCol rows) (jsKeys xCol rows)

-- ## The partition-of-rows counting lemma

theorem sum_countOf_eq_length (xCol : String) :
    ∀ (keys : List String) (rows : List Row), keys.Nodup →
      (∀ r ∈ rows, keyOf xCol r ∈ keys) →
      (keys.map (countOf xCol rows)).sum = rows.length := by
  intro keys
  induction keys with
  | nil =>
      intro rows _ hcov
      have : rows = [] := by
        cases rows with
        | nil => rfl
        | cons r rs => exact absurd (hcov r (List.mem_cons_self _ _)) (by simp)
      simp [this]
  | cons k ks ih =>
      intro rows hnd hcov
      have hnd' : ks.Nodup := hnd.of_cons
      have hknk : k ∉ ks := by
        intro hk
        exact (List.nodup_cons.mp hnd).1 hk
      -- rows not in group k
      have hrest : ∀ r ∈ rows.filter (fun r => !(keyOf xCol r == k)), keyOf xCol r ∈ ks := by
        intro r hr
        rcases List.mem_filter.mp hr with ⟨hrmem, hne⟩
        have := hcov r hrmem
        rcases List.mem_cons.mp this with h | h
        · exfalso
          simp [h] at hne
        · exact h
      have hmap : ks.map (countOf xCol rows) =
          ks.map (countOf xCol (rows.filter (fun r => !(keyOf xCol r == k)))) := by
        apply List.map_congr_left
        intro a ha
        have hak : a ≠ k := by
          intro h
          exact hknk (h ▸ ha)
        unfold countOf groupOf
        rw [List.filter_filter]
        congr 1
        apply List.filter_congr
        intro r _
        by_cases h : keyOf xCol r = a
        · simp [h, hak]
        · simp [h]
      rw [List.map_cons, List.sum_cons, hmap,
        ih (rows.filter (fun r => !(keyOf xCol r == k))) hnd' hrest]
      unfold countOf groupOf
      exact length_filter_add_length_filter_neg (fun r => keyOf xCol r == k) rows

-- ## The shown/collapsed loop

theorem shownLoop_fst (agg : Agg) (val : String → ℚ) (selected : List String) :
    ∀ ks : List String,
      (shownLoop agg val selected ks).1 =
        (ks.filter (fun k => decide (k ∈ selected))).map (fun k => (k, val k)) := by
  intro ks
  induction ks with
  | nil => rfl
  | cons k ks ih =>
      by_cases h : k ∈ selected
      · simp [shownLoop, h, ih]
      · by_cases ha : agg = Agg.average
        · subst ha; simp [shownLoop, h, ih]
        · simp [shownLoop, h, ha, ih]

theorem shownLoop_other_avg (val : String → ℚ) (selected : List String) :
    ∀ ks : List String, (shownLoop Agg.average val selected ks).2.1 = 0 := by
  intro ks
  induction ks with
  | nil => rfl
  | cons k ks ih =>
      by_cases h : k ∈ selected <;> simp [shownLoop, h, ih]

theorem shownLoop_hasOther_avg (val : String → ℚ) (selected : List String) :
    ∀ ks : List String, (shownLoop Agg.average val selected ks).2.2 = false := by
  intro ks
  induction ks with
  | nil => rfl
  | cons k ks ih =>
      by_cases h : k ∈ selected <;> simp [shownLoop, h, ih]

theorem shownLoop_other (agg : Agg) (val : String → ℚ) (selected : List String)
    (hne : agg ≠ Agg.average) :
    ∀ ks : List String,
      (shownLoop agg val selected ks).2.1 =
        ((ks.filter (fun k => !decide (k ∈ selected))).map val).sum := by
  intro ks
  induction ks with
  | nil => rfl
  | cons k ks ih =>
      by_cases h : k ∈ selected <;> simp [shownLoop, h, hne, ih]

theorem shownLoop_hasOther (agg : Agg) (val : String → ℚ) (selected : List String)
    (hne : agg ≠ Agg.average) :
    ∀ ks : List String,
      (shownLoop agg val selected ks).2.2 =
        !(ks.filter (fun k => !decide (k ∈ selected))).isEmpty := by
  intro ks
  induction ks with
  | nil => rfl
  | cons k ks ih =>
      by_cases h : k ∈ selected <;> simp [shownLoop, h, hne, ih]

-- ## Structure of the bar/pie output

theorem map_fst_pairs {β : Type} (f : String → β) (l : List String) :
    (l.map (fun k => (k, f k))).map Prod.fst = l := by
  induction l with
  | nil => rfl
  | cons k ks ih => simp [ih]

theorem map_snd_pairs {β : Type} (f : String → β) (l : List String) :
    (l.map (fun k => (k, f k))).map Prod.snd = l.map f := by
  induction l with
  | nil => rfl
  | cons k ks ih => simp [ih]

theorem catLabels_computeCatData (xCol yCol : String) (agg : Agg) (rows : List Row)
    (sel : Option (List String)) :
    ∃ t, (t = [] ∨ t = ["Other"]) ∧
      catLabels (computeCatData xCol yCol agg rows sel) = shownKeys xCol rows sel ++ t := by
  unfold computeCatData
  by_cases hc : (shownLoop agg (fun k => aggValue agg yCol (groupOf xCol rows k))
      (selectedOf xCol rows sel) (sortedKeys xCol rows)).2.2 = true ∧
      0 < (shownLoop agg (fun k => aggValue agg yCol (groupOf xCol rows k))
      (selectedOf xCol rows sel) (sortedKeys xCol rows)).2.1
  · refine ⟨["Other"], Or.inr rfl, ?_⟩
    rw [if_pos hc]
    simp only [catLabels, shownLoop_fst, shownKeys]
    rw [map_fst_pairs]
  · refine ⟨[], Or.inl rfl, ?_⟩
    rw [if_neg hc]
    simp only [catLabels, shownLoop_fst, shownKeys]
    rw [map_fst_pairs, List.append_nil]

theorem catValues_computeCatData (xCol yCol : String) (agg : Agg) (rows : List Row)
    (sel : Option (List String)) :
    (catValues (computeCatData xCol yCol agg rows sel) =
        (shownKeys xCol rows sel).map (fun k => aggValue agg yCol (groupOf xCol rows k)) ++
          [((collapsedKeys xCol rows sel).map
              (fun k => aggValue agg yCol (groupOf xCol rows k))).sum] ∧
      agg ≠ Agg.average ∧
      0 < ((collapsedKeys xCol rows sel).map
          (fun k => aggValue agg yCol (groupOf xCol rows k))).sum) ∨
    (catValues (computeCatData xCol yCol agg rows sel) =
        (shownKeys xCol rows sel).map (fun k => aggValue agg yCol (groupOf xCol rows k)) ∧
      (agg = Agg.average ∨
        ¬ 0 < ((collapsedKeys xCol rows sel).map
            (fun k => aggValue agg yCol (groupOf xCol rows k))).sum ∨
        collapsedKeys xCol rows sel = [])) := by
  unfold computeCatData
  by_cases ha : agg = Agg.average
  · subst ha
    right
    rw [if_neg]
    · constructor
      · simp only [catValues, shownLoop_fst, shownKeys]
        rw [map_snd_pairs]
      · exact Or.inl rfl
    · rw [shownLoop_hasOther_avg]
      simp
  · by_cases hc : (shownLoop agg (fun k => aggValue agg yCol (groupOf xCol rows k))
        (selectedOf xCol rows sel) (sortedKeys xCol rows)).2.2 = true ∧
        0 < (shownLoop agg (fun k => aggValue agg yCol (groupOf xCol rows k))
        (selectedOf xCol rows sel) (sortedKeys xCol rows)).2.1
    · left
      rw [if_pos hc]
      refine ⟨?_, ha, ?_⟩
      · rw [shownLoop_other _ _ _ ha] at hc ⊢
        simp only [catValues, shownLoop_fst, shownKeys, collapsedKeys]
        rw [map_snd_pairs]
      · rw [shownLoop_other _ _ _ ha] at hc
        exact hc.2
    · right
      rw [if_neg hc]
      constructor
      · simp only [catValues, shownLoop_fst, shownKeys]
        rw [map_snd_pairs]
      · rcases not_and_or.mp hc with h | h
        · rw [shownLoop_hasOther _ _ _ ha] at h
          refine Or.inr (Or.inr ?_)
          rcases Bool.not_eq_true _ |>.mp h with h'
          have : (collapsedKeys xCol rows sel).isEmpty = true := by
            unfold collapsedKeys
            revert h'
            cases ((sortedKeys xCol rows).filter
              (fun k => !decide (k ∈ selectedOf xCol rows sel))).isEmpty <;> simp
          exact List.isEmpty_iff.mp this
        · rw [shownLoop_other _ _ _ ha] at h
          exact Or.inr (Or.inl h)

-- ## Reduction of computeChartData to the categorical branch

theorem computeChartData_barpie (recipe : Recipe) (rows : List Row)
    (sel : Option (List String))
    (h : recipe.type = ChartType.bar ∨ recipe.type = ChartType.pie) :
    computeChartData recipe rows sel =
      computeCatData recipe.xColumn recipe.yColumn recipe.aggregation rows sel := by
  rcases h with h | h <;> (unfold computeChartData; rw [h])

theorem sum_countCast_sortedKeys (xCol : String) (rows : List Row) :
    ((sortedKeys xCol rows).map (fun k => ((countOf xCol rows k : ℚ)))).sum =
      ((rows.length : ℚ)) := by
  have hperm := ((sortedKeys_perm xCol rows).map
    (fun k => ((countOf xCol rows k : ℚ)))).sum_eq
  rw [hperm]
  have h := sum_countOf_eq_length xCol (jsKeys xCol rows) rows (jsKeys_nodup xCol rows)
    (fun r hr => keyOf_mem_jsKeys xCol rows r hr)
  calc ((jsKeys xCol rows).map (fun k => ((countOf xCol rows k : ℚ)))).sum
      = (((jsKeys xCol rows).map (countOf xCol rows)).map (fun n : ℕ => ((n : ℚ)))).sum := by
        rw [List.map_map]
        rfl
    _ = ((((jsKeys xCol rows).map (countOf xCol rows)).sum : ℕ) : ℚ) :=
        (Nat.cast_list_sum _).symm
    _ = ((rows.length : ℚ)) := by rw [h]

/-- C1: for a bar or pie recipe with count aggregation, the rational
values returned by the Aggregation Engine, the synthetic "Other" bucket
included, sum to exactly the number of input rows, for every category
selection. -/
theorem c1_count_total_invariant (recipe : Recipe) (rows : List Row)
    (sel : Option (List String)) (hagg : recipe.aggregation = Agg.count)
    (htype : recipe.type = ChartType.bar ∨ recipe.type = ChartType.pie) :
    (catValues (computeChartData recipe rows sel)).sum = ((rows.length : ℚ)) := by
  rw [computeChartData_barpie recipe rows sel htype, hagg]
  have hval : (fun k => aggValue Agg.count recipe.yColumn (groupOf recipe.xColumn rows k)) =
      (fun k => ((countOf recipe.xColumn rows k : ℚ))) := rfl
  have hpart := sum_map_filter_partition
    (fun k => decide (k ∈ selectedOf recipe.xColumn rows sel))
    (fun k => ((countOf recipe.xColumn rows k : ℚ))) (sortedKeys recipe.xColumn rows)
  have htot := sum_countCast_sortedKeys recipe.xColumn rows
  have hshown : shownKeys recipe.xColumn rows sel =
      (sortedKeys recipe.xColumn rows).filter
        (fun k => decide (k ∈ selectedOf recipe.xColumn rows sel)) := rfl
  have hcoll : collapsedKeys recipe.xColumn rows sel =
      (sortedKeys recipe.xColumn rows).filter
        (fun k => !decide (k ∈ selectedOf recipe.xColumn rows sel)) := rfl
  rcases catValues_computeCatData recipe.xColumn recipe.yColumn Agg.count rows sel with
    ⟨heq, _, _⟩ | ⟨heq, hz⟩
  · rw [heq, List.sum_append, hval, List.sum_cons, List.sum_nil, add_zero,
      hshown, hcoll, hpart, htot]
  · rw [heq, hval, hshown]
    have hzero : ((collapsedKeys recipe.xColumn rows sel).map
        (fun k => ((countOf recipe.xColumn rows k : ℚ)))).sum = 0 := by
      rcases hz with hz | hz | hz
      · cases hz
      · have hnn : 0 ≤ ((collapsedKeys recipe.xColumn rows sel).map
            (fun k => ((countOf recipe.xColumn rows k : ℚ)))).sum := by
          apply List.sum_nonneg
          intro x hx
          rcases List.mem_map.mp hx with ⟨k, _, hk⟩
          rw [← hk]
          exact Nat.cast_nonneg _
        rw [hval] at hz
        exact le_antisymm (not_lt.mp hz) hnn
      · rw [hz]
        rfl
    rw [hcoll] at hzero
    rw [← htot, ← hpart, hzero, add_zero]

/-- Witness for C1 at the spec's own scenario: four survey rows, count
aggregation, selection limited to one category. -/
theorem c1_count_total_invariant_witness :
    wRecipeCount.aggregation = Agg.count ∧
      (wRecipeCount.type = ChartType.bar ∨ wRecipeCount.type = ChartType.pie) ∧
      (catValues (computeChartData wRecipeCount wRows (some ["Tech"]))).sum =
        ((wRows.length : ℚ)) :=
  ⟨rfl, Or.inl rfl,
    c1_count_total_invariant wRecipeCount wRows (some ["Tech"]) rfl (Or.inl rfl)⟩

-- ## Valid-row refinement of the numeric aggregates

theorem numsOf_eq_validNums (yCol : String) (g : List Row) :
    (g.map (fun r => jsToNum (rowValue r yCol))).filterMap id = validNums yCol g := by
  unfold validNums validRows
  induction g with
  | nil => rfl
  | cons r rs ih =>
      cases h : jsToNum (rowValue r yCol) <;> simp [h, ih]

theorem aggValue_sum_spec (yCol : String) (g : List Row) :
    aggValue Agg.sum yCol g = specSum yCol g := by
  show ((g.map (fun r => jsToNum (rowValue r yCol))).filterMap id).sum = specSum yCol g
  rw [numsOf_eq_validNums]
  rfl

theorem aggValue_avg_spec (yCol : String) (g : List Row) :
    aggValue Agg.average yCol g = specAverage yCol g := by
  show (if ((g.map (fun r => jsToNum (rowValue r yCol))).filterMap id).length = 0 then 0
      else round2 (((g.map (fun r => jsToNum (rowValue r yCol))).filterMap id).sum /
        (((((g.map (fun r => jsToNum (rowValue r yCol))).filterMap id).length : ℕ) : ℚ)))) =
    specAverage yCol g
  rw [numsOf_eq_validNums]
  unfold specAverage
  simp only [List.length_eq_zero]

-- ## The no-selection (full pass-through) case

theorem filter_selected_none (xCol : String) (rows : List Row) :
    (sortedKeys xCol rows).filter
      (fun k => decide (k ∈ selectedOf xCol rows none)) = sortedKeys xCol rows := by
  apply List.filter_eq_self.mpr
  intro a ha
  have := (mem_sortedKeys xCol rows a).mp ha
  simpa [selectedOf] using this

theorem filter_collapsed_none (xCol : String) (rows : List Row) :
    (sortedKeys xCol rows).filter
      (fun k => !decide (k ∈ selectedOf xCol rows none)) = [] := by
  apply List.filter_eq_nil_iff.mpr
  intro a ha
  have := (mem_sortedKeys xCol rows a).mp ha
  simpa [selectedOf] using this

theorem hasOther_none (xCol yCol : String) (agg : Agg) (rows : List Row) :
    (shownLoop agg (fun k => aggValue agg yCol (groupOf xCol rows k))
      (selectedOf xCol rows none) (sortedKeys xCol rows)).2.2 = false := by
  by_cases ha : agg = Agg.average
  · subst ha
    exact shownLoop_hasOther_avg _ _ _
  · rw [shownLoop_hasOther _ _ _ ha, filter_collapsed_none]
    rfl

theorem catLabels_none (xCol yCol : String) (agg : Agg) (rows : List Row) :
    catLabels (computeCatData xCol yCol agg rows none) = sortedKeys xCol rows := by
  unfold computeCatData
  rw [if_neg]
  · simp only [catLabels, shownLoop_fst]
    rw [map_fst_pairs, filter_selected_none]
  · rintro ⟨h1, _⟩
    rw [hasOther_none] at h1
    cases h1

theorem catValues_none (xCol yCol : String) (agg : Agg) (rows : List Row) :
    catValues (computeCatData xCol yCol agg rows none) =
      (sortedKeys xCol rows).map (fun k => aggValue agg yCol (groupOf xCol rows k)) := by
  unfold computeCatData
  rw [if_neg]
  · simp only [catValues, shownLoop_fst]
    rw [map_snd_pairs, filter_selected_none]
  · rintro ⟨h1, _⟩
    rw [hasOther_none] at h1
    cases h1

/-- C2: for sum and average aggregation, every per-group value of the
Aggregation Engine is computed only over the rows of that group whose y
value coerces to a valid number (malformed and missing entries are
dropped, never fatal), and a group with zero valid numeric entries
yields exactly 0 for average. -/
theorem c2_invalid_numeric_dropped (recipe : Recipe) (rows : List Row)
    (htype : recipe.type = ChartType.bar ∨ recipe.type = ChartType.pie) :
    (recipe.aggregation = Agg.sum →
      catValues (computeChartData recipe rows none) =
        (sortedKeys recipe.xColumn rows).map
          (fun k => specSum recipe.yColumn (groupOf recipe.xColumn rows k))) ∧
    (recipe.aggregation = Agg.average →
      catValues (computeChartData recipe rows none) =
        (sortedKeys recipe.xColumn rows).map
          (fun k => specAverage recipe.yColumn (groupOf recipe.xColumn rows k))) ∧
    (∀ g : List Row, validNums recipe.yColumn g = [] →
      aggValue Agg.average recipe.yColumn g = 0) := by
  refine ⟨?_, ?_, ?_⟩
  · intro hagg
    rw [computeChartData_barpie recipe rows none htype, hagg, catValues_none]
    exact List.map_congr_left (fun k _ => aggValue_sum_spec _ _)
  · intro hagg
    rw [computeChartData_barpie recipe rows none htype, hagg, catValues_none]
    exact List.map_congr_left (fun k _ => aggValue_avg_spec _ _)
  · intro g hg
    rw [aggValue_avg_spec]
    unfold specAverage
    rw [if_pos hg]

/-- Witness for C2: a bar-sum recipe, and a group whose only row has a
non-numeric y value, whose average is exactly 0. -/
theorem c2_invalid_numeric_dropped_witness :
    (wRecipeSum.type = ChartType.bar ∨ wRecipeSum.type = ChartType.pie) ∧
      validNums wRecipeSum.yColumn wBadGroup = [] ∧
      aggValue Agg.average wRecipeSum.yColumn wBadGroup = 0 :=
  ⟨Or.inl rfl, by decide,
    (c2_invalid_numeric_dropped wRecipeSum [] (Or.inl rfl)).2.2 wBadGroup (by decide)⟩

/-- C3: for a bar or pie recipe the labels of the Aggregation Engine are
the shown group keys in descending group-size order, followed, when
present, by the synthetic "Other" label and nothing else. -/
theorem c3_labels_sorted_other_last (recipe : Recipe) (rows : List Row)
    (sel : Option (List String))
    (htype : recipe.type = ChartType.bar ∨ recipe.type = ChartType.pie) :
    ∃ t, (t = [] ∨ t = ["Other"]) ∧
      catLabels (computeChartData recipe rows sel) =
        shownKeys recipe.xColumn rows sel ++ t ∧
      List.Pairwise
        (fun a b => countOf recipe.xColumn rows b ≤ countOf recipe.xColumn rows a)
        (shownKeys recipe.xColumn rows sel) ∧
      (∀ k ∈ shownKeys recipe.xColumn rows sel, k ∈ jsKeys recipe.xColumn rows) := by
  rw [computeChartData_barpie recipe rows sel htype]
  rcases catLabels_computeCatData recipe.xColumn recipe.yColumn recipe.aggregation rows sel
    with ⟨t, ht, heq⟩
  refine ⟨t, ht, heq, ?_, ?_⟩
  · exact (sortedKeys_sorted recipe.xColumn rows).sublist (List.filter_sublist _)
  · intro k hk
    have hk' : k ∈ sortedKeys recipe.xColumn rows :=
      List.mem_of_mem_filter hk
    exact (mem_sortedKeys recipe.xColumn rows k).mp hk'

/-- Witness for C3 at the spec scenario with a restricted selection. -/
theorem c3_labels_sorted_other_last_witness :
    (wRecipeCount.type = ChartType.bar ∨ wRecipeCount.type = ChartType.pie) ∧
      (∃ t, (t = [] ∨ t = ["Other"]) ∧
        catLabels (computeChartData wRecipeCount wRows (some ["Tech"])) =
          shownKeys wRecipeCount.xColumn wRows (some ["Tech"]) ++ t ∧
        List.Pairwise
          (fun a b =>
            countOf wRecipeCount.xColumn wRows b ≤ countOf wRecipeCount.xColumn wRows a)
          (shownKeys wRecipeCount.xColumn wRows (some ["Tech"])) ∧
        (∀ k ∈ shownKeys wRecipeCount.xColumn wRows (some ["Tech"]),
          k ∈ jsKeys wRecipeCount.xColumn wRows)) :=
  ⟨Or.inl rfl,
    c3_labels_sorted_other_last wRecipeCount wRows (some ["Tech"]) (Or.inl rfl)⟩

/-- C5 counterexample: an average recipe over rows in which the literal
string "Other" is a genuine data value of the grouping column, with a
selection containing it and excluding the group key of the other rows;
the output labels do contain "Other", refuting the claim that the
output of `computeChartData` never contains an "Other" label. -/
theorem c5_other_label_counterexample :
    wRecipeAvg.aggregation = Agg.average ∧
      (∃ k, k ∈ jsKeys wRecipeAvg.xColumn wRowsOther ∧ k ∉ (["Other"] : List String)) ∧
      "Other" ∈ catLabels (computeChartData wRecipeAvg wRowsOther (some ["Other"])) := by
  refine ⟨rfl, ⟨"B", by decide, by decide⟩, ?_⟩
  decide

/-- C5 as amended: for average aggregation with an explicit selection,
no synthetic "Other" bucket is ever appended — the labels are exactly
the group keys inside the selection (collapsed groups are dropped
entirely), so any "Other" in the output is a genuine group key that the
selection contains. -/
theorem c5_average_no_merge (recipe : Recipe) (rows : List Row) (sel : List String)
    (htype : recipe.type = ChartType.bar ∨ recipe.type = ChartType.pie)
    (hagg : recipe.aggregation = Agg.average) :
    catLabels (computeChartData recipe rows (some sel)) =
      (sortedKeys recipe.xColumn rows).filter (fun k => decide (k ∈ sel)) ∧
    (∀ l ∈ catLabels (computeChartData recipe rows (some sel)),
      l ∈ jsKeys recipe.xColumn rows ∧ l ∈ sel) := by
  rw [computeChartData_barpie recipe rows (some sel) htype, hagg]
  have heq : catLabels (computeCatData recipe.xColumn recipe.yColumn Agg.average rows
      (some sel)) = (sortedKeys recipe.xColumn rows).filter (fun k => decide (k ∈ sel)) := by
    unfold computeCatData
    rw [if_neg]
    · simp only [catLabels, shownLoop_fst]
      rw [map_fst_pairs]
      rfl
    · rintro ⟨h1, _⟩
      rw [shownLoop_hasOther_avg] at h1
      cases h1
  refine ⟨heq, ?_⟩
  intro l hl
  rw [heq] at hl
  constructor
  · exact (mem_sortedKeys recipe.xColumn rows l).mp (List.mem_of_mem_filter hl)
  · have := List.of_mem_filter hl
    simpa using this

/-- Witness for the amended C5 at the counterexample input. -/
theorem c5_average_no_merge_witness :
    (wRecipeAvg.type = ChartType.bar ∨ wRecipeAvg.type = ChartType.pie) ∧
      wRecipeAvg.aggregation = Agg.average ∧
      catLabels (computeChartData wRecipeAvg wRowsOther (some ["Other"])) =
        (sortedKeys wRecipeAvg.xColumn wRowsOther).filter
          (fun k => decide (k ∈ (["Other"] : List String))) ∧
      (∀ l ∈ catLabels (computeChartData wRecipeAvg wRowsOther (some ["Other"])),
        l ∈ jsKeys wRecipeAvg.xColumn wRowsOther ∧ l ∈ (["Other"] : List String)) :=
  ⟨Or.inl rfl, rfl,
    (c5_average_no_merge wRecipeAvg wRowsOther ["Other"] (Or.inl rfl) rfl).1,
    (c5_average_no_merge wRecipeAvg wRowsOther ["Other"] (Or.inl rfl) rfl).2⟩

-- ## Filter-state lemmas

theorem find?_filter_of_imp {α : Type} (p q : α → Bool) (l : List α)
    (h : ∀ x, p x = true → q x = true) : (l.filter q).find? p = l.find? p := by
  induction l with
  | nil => rfl
  | cons x xs ih =>
      by_cases hq : q x = true
      · rw [List.filter_cons_of_pos hq]
        by_cases hp : p x = true
        · rw [List.find?_cons_of_pos _ hp, List.find?_cons_of_pos _ hp]
        · rw [List.find?_cons_of_neg _ (by simpa using hp),
            List.find?_cons_of_neg _ (by simpa using hp), ih]
      · rw [List.filter_cons_of_neg (by simpa using hq)]
        have hp : ¬ p x = true := fun hpx => hq (h x hpx)
        rw [List.find?_cons_of_neg _ (by simpa using hp), ih]

theorem fsGet_eq_none_iff (fs : FilterState) (col : String) :
    fsGet fs col = none ↔ ∀ p ∈ fs, ¬ p.1 = col := by
  unfold fsGet
  rw [Option.map_eq_none', List.find?_eq_none]
  constructor
  · intro h p hp
    have := h p hp
    simpa using this
  · intro h p hp
    simpa using h p hp

theorem fsDelete_of_get_none (fs : FilterState) (col : String)
    (h : fsGet fs col = none) : fsDelete fs col = fs := by
  apply List.filter_eq_self.mpr
  intro p hp
  have := (fsGet_eq_none_iff fs col).mp h p hp
  simpa using this

theorem fsGet_fsDelete_self (fs : FilterState) (col : String) :
    fsGet (fsDelete fs col) col = none := by
  unfold fsGet fsDelete
  rw [Option.map_eq_none', List.find?_eq_none]
  intro p hp
  have := List.of_mem_filter hp
  simpa using this

theorem fsGet_fsSet_self (fs : FilterState) (col val : String) :
    fsGet (fsSet fs col val) col = some val := by
  unfold fsSet
  unfold fsGet
  rw [List.find?_append]
  have h1 : List.find? (fun p => p.1 == col) (fsDelete fs col) = none := by
    have := fsGet_fsDelete_self fs col
    unfold fsGet at this
    exact Option.map_eq_none'.mp this
  rw [h1]
  simp

theorem fsGet_fsDelete_ne (fs : FilterState) (col c : String) (h : c ≠ col) :
    fsGet (fsDelete fs col) c = fsGet fs c := by
  unfold fsGet fsDelete
  rw [find?_filter_of_imp]
  intro p hp
  have hpc : p.1 = c := by simpa using hp
  simp [hpc, h]

theorem fsGet_fsSet_ne (fs : FilterState) (col val c : String) (h : c ≠ col) :
    fsGet (fsSet fs col val) c = fsGet fs c := by
  have h1 := fsGet_fsDelete_ne fs col c h
  unfold fsSet
  unfold fsGet at h1 ⊢
  rw [List.find?_append]
  have h2 : List.find? (fun p => p.1 == c) [(col, val)] = none := by
    rw [List.find?_eq_none]
    intro p hp
    rcases List.mem_singleton.mp hp with rfl
    simpa using fun hcol => h hcol.symm
  rw [h2, Option.or_none]
  unfold fsDelete at h1
  exact h1

theorem fsDelete_fsDelete (fs : FilterState) (col : String) :
    fsDelete (fsDelete fs col) col = fsDelete fs col := by
  apply List.filter_eq_self.mpr
  intro p hp
  exact (List.mem_filter.mp hp).2

theorem fsKeysNodup_fsDelete (fs : FilterState) (col : String)
    (h : fsKeysNodup fs) : fsKeysNodup (fsDelete fs col) := by
  unfold fsKeysNodup at h ⊢
  unfold fsDelete
  exact h.sublist ((List.filter_sublist fs).map Prod.fst)

theorem fsKeysNodup_fsSet (fs : FilterState) (col val : String)
    (h : fsKeysNodup fs) : fsKeysNodup (fsSet fs col val) := by
  have hdel := fsKeysNodup_fsDelete fs col h
  unfold fsKeysNodup at hdel ⊢
  unfold fsSet
  rw [List.map_append, List.nodup_append]
  refine ⟨hdel, List.nodup_singleton _, ?_⟩
  intro a ha hb
  rcases List.mem_map.mp ha with ⟨p, hp, hpa⟩
  have hkey := List.of_mem_filter hp
  rcases List.mem_singleton.mp hb with rfl
  rw [← hpa] at hkey
  simp at hkey

theorem mem_iff_fsGet : ∀ (fs : FilterState), fsKeysNodup fs → ∀ c v : String,
    ((c, v) ∈ fs ↔ fsGet fs c = some v) := by
  intro fs
  induction fs with
  | nil =>
      intro _ c v
      simp [fsGet]
  | cons p rest ih =>
      intro hnd c v
      have hnd' : fsKeysNodup rest := by
        unfold fsKeysNodup at hnd ⊢
        rw [List.map_cons] at hnd
        exact (List.nodup_cons.mp hnd).2
      have hpk : p.1 ∉ rest.map Prod.fst := by
        unfold fsKeysNodup at hnd
        rw [List.map_cons] at hnd
        exact (List.nodup_cons.mp hnd).1
      by_cases hc : p.1 = c
      · constructor
        · intro hmem
          rcases List.mem_cons.mp hmem with h | h
          · unfold fsGet
            rw [List.find?_cons_of_pos _ (by simpa using hc)]
            rw [← h]
            rfl
          · exfalso
            apply hpk
            rw [hc]
            exact List.mem_map.mpr ⟨(c, v), h, rfl⟩
        · intro hget
          unfold fsGet at hget
          rw [List.find?_cons_of_pos _ (by simpa using hc)] at hget
          have hpv : p.2 = v := by simpa using hget
          rcases p with ⟨a, b⟩
          dsimp at hc hpv
          subst hc
          subst hpv
          exact List.mem_cons_self _ _
      · have hskip : fsGet (p :: rest) c = fsGet rest c := by
          unfold fsGet
          rw [List.find?_cons_of_neg _ (by simpa using hc)]
        rw [hskip, ← ih hnd' c v]
        constructor
        · intro hmem
          rcases List.mem_cons.mp hmem with h | h
          · exact absurd (show p.1 = c by rw [← h]) hc
          · exact h
        · exact fun h => List.mem_cons_of_mem _ h

theorem rowPasses_congr (fs gs : FilterState) (hfs : fsKeysNodup fs)
    (hgs : fsKeysNodup gs) (h : ∀ c, fsGet fs c = fsGet gs c) (r : Row) :
    rowPasses fs r = rowPasses gs r := by
  have key : ∀ (xs : FilterState), fsKeysNodup xs →
      (rowPasses xs r = true ↔ ∀ c v : String, fsGet xs c = some v →
        rowValue r c = some v) := by
    intro xs hxs
    unfold rowPasses
    rw [List.all_eq_true]
    constructor
    · intro hall c v hget
      have hmem := (mem_iff_fsGet xs hxs c v).mpr hget
      have := hall (c, v) hmem
      simpa using this
    · intro hget p hp
      have := hget p.1 p.2 ((mem_iff_fsGet xs hxs p.1 p.2).mp hp)
      simpa using this
  have h1 := key fs hfs
  have h2 := key gs hgs
  cases hb : rowPasses fs r with
  | true =>
      have hall := h1.mp hb
      have hg : rowPasses gs r = true := by
        rw [h2]
        intro c v hget
        apply hall c v
        rw [h c]
        exact hget
      rw [hg]
  | false =>
      cases hb2 : rowPasses gs r with
      | false => rfl
      | true =>
          have hall := h2.mp hb2
          have hf : rowPasses fs r = true := by
            rw [h1]
            intro c v hget
            apply hall c v
            rw [← h c]
            exact hget
          rw [hb] at hf
          cases hf

/-- C4 counterexample: with the industry column already filtered to
Finance, two clicks on the Tech bar leave the column unfiltered — the
filter state does not return to its starting state and the filtered row
set changes, refuting the claim for arbitrary starting states. -/
theorem c4_double_toggle_counterexample :
    fsGet wFsFinance "industry" = some "Finance" ∧
      fsGet (toggleFilter (toggleFilter wFsFinance "industry" "Tech") "industry" "Tech")
        "industry" ≠ fsGet wFsFinance "industry" ∧
      getFilteredRows
        (toggleFilter (toggleFilter wFsFinance "industry" "Tech") "industry" "Tech")
        wRows ≠ getFilteredRows wFsFinance wRows := by
  refine ⟨rfl, ?_, ?_⟩ <;> decide

/-- C4 as amended: when the clicked column is currently unfiltered, or
filtered to exactly the clicked value, two toggles with the same
column=value pair restore the filter state (at every column) and
`getFilteredRows` returns the same row set as before the two clicks. -/
theorem c4_double_toggle_restores (fs : FilterState) (col val : String)
    (rows : List Row) (hnd : fsKeysNodup fs)
    (h : fsGet fs col = none ∨ fsGet fs col = some val) :
    (∀ c, fsGet (toggleFilter (toggleFilter fs col val) col val) c = fsGet fs c) ∧
      getFilteredRows (toggleFilter (toggleFilter fs col val) col val) rows =
        getFilteredRows fs rows := by
  rcases h with h | h
  · have hne : ¬ fsGet fs col = some val := by
      rw [h]
      simp
    have h1 : toggleFilter fs col val = fsSet fs col val := by
      unfold toggleFilter
      rw [if_neg hne]
    have h2 : toggleFilter (fsSet fs col val) col val = fsDelete (fsSet fs col val) col := by
      unfold toggleFilter
      rw [if_pos (fsGet_fsSet_self fs col val)]
    have h3 : fsDelete (fsSet fs col val) col = fs := by
      unfold fsSet
      have hsplit : fsDelete (fsDelete fs col ++ [(col, val)]) col =
          fsDelete (fsDelete fs col) col ++ fsDelete [(col, val)] col := by
        unfold fsDelete
        exact List.filter_append _ _
      rw [hsplit, fsDelete_fsDelete]
      have hb : fsDelete [(col, val)] col = [] := by
        unfold fsDelete
        simp
      rw [hb, List.append_nil, fsDelete_of_get_none fs col h]
    rw [h1, h2, h3]
    exact ⟨fun c => rfl, rfl⟩
  · have h1 : toggleFilter fs col val = fsDelete fs col := by
      unfold toggleFilter
      rw [if_pos h]
    have hg : fsGet (fsDelete fs col) col = none := fsGet_fsDelete_self fs col
    have hne : ¬ fsGet (fsDelete fs col) col = some val := by
      rw [hg]
      simp
    have h2 : toggleFilter (fsDelete fs col) col val =
        fsSet (fsDelete fs col) col val := by
      unfold toggleFilter
      rw [if_neg hne]
    have hpt : ∀ c, fsGet (fsSet (fsDelete fs col) col val) c = fsGet fs c := by
      intro c
      by_cases hc : c = col
      · subst hc
        rw [fsGet_fsSet_self, h]
      · rw [fsGet_fsSet_ne _ _ _ _ hc, fsGet_fsDelete_ne _ _ _ hc]
    have hndf : fsKeysNodup (fsSet (fsDelete fs col) col val) :=
      fsKeysNodup_fsSet _ _ _ (fsKeysNodup_fsDelete _ _ hnd)
    rw [h1, h2]
    refine ⟨hpt, ?_⟩
    unfold getFilteredRows
    apply List.filter_congr
    intro r _
    exact rowPasses_congr _ fs hndf hnd hpt r

/-- Witness for the amended C4: an empty starting filter state. -/
theorem c4_double_toggle_restores_witness :
    fsKeysNodup ([] : FilterState) ∧
      (fsGet ([] : FilterState) "industry" = none ∨
        fsGet ([] : FilterState) "industry" = some "Tech") ∧
      (∀ c, fsGet (toggleFilter (toggleFilter ([] : FilterState) "industry" "Tech")
        "industry" "Tech") c = fsGet ([] : FilterState) c) ∧
      getFilteredRows (toggleFilter (toggleFilter ([] : FilterState) "industry" "Tech")
        "industry" "Tech") wRows = getFilteredRows ([] : FilterState) wRows :=
  ⟨by unfold fsKeysNodup; decide, Or.inl rfl,
    (c4_double_toggle_restores [] "industry" "Tech" wRows
      (by unfold fsKeysNodup; decide) (Or.inl rfl)).1,
    (c4_double_toggle_restores [] "industry" "Tech" wRows
      (by unfold fsKeysNodup; decide) (Or.inl rfl)).2⟩

-- ## Category-pill clicks

theorem pillClick_preserves (sel : List String) (cat : String) (hnd : sel.Nodup)
    (hne : sel ≠ []) : (pillClick sel cat).Nodup ∧ pillClick sel cat ≠ [] := by
  unfold pillClick
  by_cases hmem : cat ∈ sel
  · rw [if_pos hmem]
    by_cases hlen : sel.length ≤ 1
    · rw [if_pos hlen]
      exact ⟨hnd, hne⟩
    · rw [if_neg hlen]
      refine ⟨hnd.filter _, ?_⟩
      intro hnil
      have hall : ∀ x ∈ sel, x = cat := by
        intro x hx
        by_contra hxc
        have hxf : x ∈ sel.filter (fun c => c ≠ cat) :=
          List.mem_filter.mpr ⟨hx, by simpa using hxc⟩
        rw [hnil] at hxf
        cases hxf
      push_neg at hlen
      rcases sel with _ | ⟨a, _ | ⟨b, rest⟩⟩
      · exact hne rfl
      · simp at hlen
      · have ha := hall a (by simp)
        have hb := hall b (by simp)
        rw [List.nodup_cons] at hnd
        exact hnd.1 (by rw [ha, ← hb]; exact List.mem_cons_self _ _)
  · rw [if_neg hmem]
    refine ⟨?_, by simp⟩
    rw [List.nodup_append]
    exact ⟨hnd, List.nodup_singleton _, by
      intro a ha hb
      rcases List.mem_singleton.mp hb with rfl
      exact hmem ha⟩

/-- C6: starting from a nonempty selection of distinct labels, any
sequence of category-pill clicks (removals included) never reduces the
selection below size one: a removal that would empty it is rejected. -/
theorem c6_selection_floor (sel : List String) (cats : List String)
    (hnd : sel.Nodup) (hne : sel ≠ []) :
    1 ≤ (List.foldl pillClick sel cats).length := by
  have hinv : ∀ (cs : List String) (s : List String), s.Nodup → s ≠ [] →
      ((List.foldl pillClick s cs).Nodup ∧ List.foldl pillClick s cs ≠ []) := by
    intro cs
    induction cs with
    | nil =>
        intro s h1 h2
        exact ⟨h1, h2⟩
    | cons c cs ih =>
        intro s h1 h2
        rw [List.foldl_cons]
        have step := pillClick_preserves s c h1 h2
        exact ih _ step.1 step.2
  exact List.length_pos.mpr (hinv cats sel hnd hne).2

/-- Witness for C6: a singleton selection survives repeated removal
clicks on its only label. -/
theorem c6_selection_floor_witness :
    (["A"] : List String).Nodup ∧ (["A"] : List String) ≠ [] ∧
      1 ≤ (List.foldl pillClick ["A"] ["A", "A", "B"]).length :=
  ⟨by decide, by decide,
    c6_selection_floor ["A"] ["A", "A", "B"] (by decide) (by decide)⟩

/-- C7: `getAllCategories` is ordered by descending count; with at most
four distinct categories no selection is created and the engine, given
no selection, shows every group key; with more than four, the first use
initializes the selection to exactly the first four categories of that
ordering. -/
theorem c7_selector_threshold_default (recipe : Recipe) (rows : List Row)
    (htype : recipe.type = ChartType.bar ∨ recipe.type = ChartType.pie) :
    List.Pairwise
      (fun a b => countOf recipe.xColumn rows b ≤ countOf recipe.xColumn rows a)
      (getAllCategories recipe.xColumn rows) ∧
    ((getAllCategories recipe.xColumn rows).length ≤ DEFAULT_MAX_CATEGORIES →
      ensureSelection none (getAllCategories recipe.xColumn rows) = none ∧
      catLabels (computeChartData recipe rows none) = sortedKeys recipe.xColumn rows ∧
      ∀ k ∈ jsKeys recipe.xColumn rows,
        k ∈ catLabels (computeChartData recipe rows none)) ∧
    (DEFAULT_MAX_CATEGORIES < (getAllCategories recipe.xColumn rows).length →
      ensureSelection none (getAllCategories recipe.xColumn rows) =
        some ((getAllCategories recipe.xColumn rows).take DEFAULT_MAX_CATEGORIES)) := by
  refine ⟨sortedKeys_sorted recipe.xColumn rows, ?_, ?_⟩
  · intro hle
    refine ⟨?_, ?_, ?_⟩
    · unfold ensureSelection
      rw [if_pos hle]
    · rw [computeChartData_barpie recipe rows none htype]
      exact catLabels_none _ _ _ _
    · intro k hk
      rw [computeChartData_barpie recipe rows none htype, catLabels_none]
      exact (mem_sortedKeys recipe.xColumn rows k).mpr hk
  · intro hgt
    unfold ensureSelection
    rw [if_neg (not_le.mpr hgt)]
    rfl

/-- Witness for C7 at the spec scenario (three categories, below the
threshold). -/
theorem c7_selector_threshold_default_witness :
    (wRecipeCount.type = ChartType.bar ∨ wRecipeCount.type = ChartType.pie) ∧
      (List.Pairwise
        (fun a b => countOf wRecipeCount.xColumn wRows b ≤ countOf wRecipeCount.xColumn wRows a)
        (getAllCategories wRecipeCount.xColumn wRows) ∧
      ((getAllCategories wRecipeCount.xColumn wRows).length ≤ DEFAULT_MAX_CATEGORIES →
        ensureSelection none (getAllCategories wRecipeCount.xColumn wRows) = none ∧
        catLabels (computeChartData wRecipeCount wRows none) =
          sortedKeys wRecipeCount.xColumn wRows ∧
        ∀ k ∈ jsKeys wRecipeCount.xColumn wRows,
          k ∈ catLabels (computeChartData wRecipeCount wRows none)) ∧
      (DEFAULT_MAX_CATEGORIES < (getAllCategories wRecipeCount.xColumn wRows).length →
        ensureSelection none (getAllCategories wRecipeCount.xColumn wRows) =
          some ((getAllCategories wRecipeCount.xColumn wRows).take DEFAULT_MAX_CATEGORIES))) :=
  ⟨Or.inl rfl, c7_selector_threshold_default wRecipeCount wRows (Or.inl rfl)⟩

/-- C8: a row with an empty or missing value for the grouping column is
keyed "Unknown", belongs to the "Unknown" group (so it feeds that
group's aggregate input), and with count aggregation and no selection
the label "Unknown" appears in the output paired with its group size. -/
theorem c8_unknown_bucketing (recipe : Recipe) (rows : List Row) (r : Row)
    (htype : recipe.type = ChartType.bar ∨ recipe.type = ChartType.pie)
    (hr : r ∈ rows)
    (hempty : rowValue r recipe.xColumn = none ∨ rowValue r recipe.xColumn = some "") :
    keyOf recipe.xColumn r = "Unknown" ∧
      r ∈ groupOf recipe.xColumn rows "Unknown" ∧
      "Unknown" ∈ jsKeys recipe.xColumn rows ∧
      (recipe.aggregation = Agg.count →
        ("Unknown", ((countOf recipe.xColumn rows "Unknown" : ℚ))) ∈
          (catLabels (computeChartData recipe rows none)).zip
            (catValues (computeChartData recipe rows none))) := by
  have hkey : keyOf recipe.xColumn r = "Unknown" := by
    rcases hempty with h | h <;> simp [keyOf, h]
  refine ⟨hkey, ?_, ?_, ?_⟩
  · unfold groupOf
    exact List.mem_filter.mpr ⟨hr, by simp [hkey]⟩
  · exact hkey ▸ keyOf_mem_jsKeys recipe.xColumn rows r hr
  · intro hagg
    rw [computeChartData_barpie recipe rows none htype, hagg, catLabels_none,
      catValues_none]
    have hmem : "Unknown" ∈ sortedKeys recipe.xColumn rows :=
      (mem_sortedKeys _ _ _).mpr (hkey ▸ keyOf_mem_jsKeys recipe.xColumn rows r hr)
    exact mem_zip_map_of_mem
      (fun k => aggValue Agg.count recipe.yColumn (groupOf recipe.xColumn rows k))
      (sortedKeys recipe.xColumn rows) "Unknown" hmem

/-- Witness for C8: the spec scenario's empty-industry row. -/
theorem c8_unknown_bucketing_witness :
    (wRecipeCount.type = ChartType.bar ∨ wRecipeCount.type = ChartType.pie) ∧
      ([("industry", "")] : Row) ∈ wRows ∧
      (rowValue [("industry", "")] wRecipeCount.xColumn = none ∨
        rowValue [("industry", "")] wRecipeCount.xColumn = some "") ∧
      (keyOf wRecipeCount.xColumn [("industry", "")] = "Unknown" ∧
        ([("industry", "")] : Row) ∈ groupOf wRecipeCount.xColumn wRows "Unknown" ∧
        "Unknown" ∈ jsKeys wRecipeCount.xColumn wRows ∧
        (wRecipeCount.aggregation = Agg.count →
          ("Unknown", ((countOf wRecipeCount.xColumn wRows "Unknown" : ℚ))) ∈
            (catLabels (computeChartData wRecipeCount wRows none)).zip
              (catValues (computeChartData wRecipeCount wRows none)))) :=
  ⟨Or.inl rfl, by decide, Or.inr rfl,
    c8_unknown_bucketing wRecipeCount wRows [("industry", "")] (Or.inl rfl)
      (by decide) (Or.inr rfl)⟩

/-- C9: a click carrying the synthetic "Other" label never mutates the
filter state (and so never changes the filtered rows), while any other
label goes through the filter toggle. -/
theorem c9_other_click_inert (fs : FilterState) (col : String) (rows : List Row) :
    chartClick fs col "Other" = fs ∧
      getFilteredRows (chartClick fs col "Other") rows = getFilteredRows fs rows ∧
      (∀ label, label ≠ "Other" → chartClick fs col label = toggleFilter fs col label) := by
  have h : chartClick fs col "Other" = fs := by
    unfold chartClick
    rw [if_pos rfl]
  refine ⟨h, by rw [h], ?_⟩
  intro label hl
  unfold chartClick
  rw [if_neg hl]

/-- Witness for C9 on a Finance-filtered state. -/
theorem c9_other_click_inert_witness :
    chartClick wFsFinance "industry" "Other" = wFsFinance ∧
      getFilteredRows (chartClick wFsFinance "industry" "Other") wRows =
        getFilteredRows wFsFinance wRows ∧
      ("Tech" : String) ≠ "Other" ∧
      chartClick wFsFinance "industry" "Tech" = toggleFilter wFsFinance "industry" "Tech" :=
  ⟨(c9_other_click_inert wFsFinance "industry" wRows).1,
    (c9_other_click_inert wFsFinance "industry" wRows).2.1,
    by decide,
    (c9_other_click_inert wFsFinance "industry" wRows).2.2 "Tech" (by decide)⟩

/-- C10: clicking the "Unknown" bar sets the filter to the literal
string "Unknown"; the filtered subset then contains only rows whose raw
stored value is literally "Unknown", so every row whose raw value is
empty or missing (the rows that were grouped under "Unknown") fails the
filter. -/
theorem c10_unknown_filter_mismatch (fs : FilterState) (rows : List Row)
    (col : String) (h : fsGet fs col ≠ some "Unknown") :
    fsGet (chartClick fs col "Unknown") col = some "Unknown" ∧
      (∀ r ∈ getFilteredRows (chartClick fs col "Unknown") rows,
        rowValue r col = some "Unknown") ∧
      (∀ r ∈ rows, (rowValue r col = none ∨ rowValue r col = some "") →
        r ∉ getFilteredRows (chartClick fs col "Unknown") rows) := by
  have hclick : chartClick fs col "Unknown" = fsSet fs col "Unknown" := by
    unfold chartClick
    rw [if_neg (by decide)]
    unfold toggleFilter
    rw [if_neg h]
  have hget : fsGet (chartClick fs col "Unknown") col = some "Unknown" := by
    rw [hclick]
    exact fsGet_fsSet_self fs col "Unknown"
  have hpassval : ∀ r ∈ getFilteredRows (chartClick fs col "Unknown") rows,
      rowValue r col = some "Unknown" := by
    intro r hrf
    rw [hclick] at hrf
    unfold getFilteredRows at hrf
    have hpass := (List.mem_filter.mp hrf).2
    unfold rowPasses at hpass
    rw [List.all_eq_true] at hpass
    have hmem : ((col, "Unknown") : String × String) ∈ fsSet fs col "Unknown" := by
      unfold fsSet
      exact List.mem_append.mpr (Or.inr (List.mem_singleton.mpr rfl))
    have := hpass _ hmem
    simpa using this
  refine ⟨hget, hpassval, ?_⟩
  intro r _ hempty hrf
  have hval := hpassval r hrf
  rcases hempty with h' | h'
  · rw [h'] at hval
    cases hval
  · rw [h'] at hval
    have h2 := Option.some.inj hval
    exact absurd h2 (by decide)

/-- Witness for C10: rows holding an empty value, a plain value, and
the literal string "Unknown". -/
theorem c10_unknown_filter_mismatch_witness :
    fsGet ([] : FilterState) "c" ≠ some "Unknown" ∧
      fsGet (chartClick ([] : FilterState) "c" "Unknown") "c" = some "Unknown" ∧
      (∀ r ∈ getFilteredRows (chartClick ([] : FilterState) "c" "Unknown") wRowsUnknown,
        rowValue r "c" = some "Unknown") ∧
      (∀ r ∈ wRowsUnknown, (rowValue r "c" = none ∨ rowValue r "c" = some "") →
        r ∉ getFilteredRows (chartClick ([] : FilterState) "c" "Unknown") wRowsUnknown) :=
  ⟨by decide,
    (c10_unknown_filter_mismatch [] wRowsUnknown "c" (by decide)).1,
    (c10_unknown_filter_mismatch [] wRowsUnknown "c" (by decide)).2.1,
    (c10_unknown_filter_mismatch [] wRowsUnknown "c" (by decide)).2.2⟩
